import Mathlib

/-!
# Verification of the pyquil operator-estimation core

A shallow embedding of `pyquil/operator_estimation.py`: the `Experiment` /
`ExperimentSuite` data model, the TPB-compatibility grouping algorithm
(`construct_tpb_graph` / `group_experiments`), the measurement-estimation
pipeline (`measure_observables` with its helpers `_validate_all_diagonal_in_tpb`,
`_local_pauli_eig_prep`, `_local_pauli_eig_meas`), and the string/JSON
serialization layer.

The external collaborators that the module imports but whose code is not part
of the analysed sources are modelled from the specification's contracts:

* `PauliTerm` (from `pyquil.paulis`): a finite map from qubit index to a letter
  in {I, X, Y, Z} omitting qubits implicitly mapped to I, carrying a complex
  scalar coefficient, with iteration over the (qubit, letter) pairs, an
  identity predicate, and a canonical compact string form that round-trips
  losslessly through parsing.  The map is modelled as an association list that
  is canonical when strictly sorted by qubit with no explicit I entries
  (`PauliTerm.WF`); the complex scalar is modelled as a pair of rationals
  (floating point modelled by exact rational arithmetic).
* `Program` (from `pyquil`): opaque for the suite — serialization only uses
  its textual rendering `out()` and reconstruction from that text round-trips —
  so a suite's program is modelled by its text.  The programs built by
  `measure_observables` are modelled as instruction lists, with the opaque
  ansatz text embedded as a single instruction.
* `networkx.clique_removal`: modelled from the specification — repeatedly
  extract one maximal clique, remove its vertices, and repeat until no
  vertices remain, using a greedy maximal-clique heuristic.
* the device's `run_and_measure`: modelled as an arbitrary function from
  (program, n_shots, qubit, shot) to a bit.
-/

/-- A single-qubit Pauli letter.  The source manipulates these as the one-letter
strings `'I'`, `'X'`, `'Y'`, `'Z'`; the set is closed. -/
inductive PLetter
  | I
  | X
  | Y
  | Z
deriving DecidableEq, Repr

/-- Modelled from the spec: the complex scalar coefficient carried by a
`PauliTerm`, with floating-point values modelled as exact rationals. -/
structure CC where
  re : Rat
  im : Rat
deriving DecidableEq, Repr

/-- Modelled from the spec: `pyquil.paulis.PauliTerm` — a finite mapping from
qubit index to one of {I, X, Y, Z}, omitting qubits implicitly mapped to I
(association list `ops`), and a complex scalar `coefficient`. -/
structure PauliTerm where
  coefficient : CC
  ops : List (Nat × PLetter)
deriving DecidableEq, Repr

/-- Canonicity invariant of the external `PauliTerm` type: the underlying dict
is modelled by an association list strictly sorted by qubit index, and qubits
mapped to I are omitted rather than stored. -/
def PauliTerm.WF (t : PauliTerm) : Prop :=
  t.ops.Pairwise (fun a b => a.1 < b.1) ∧ ∀ p ∈ t.ops, p.2 ≠ PLetter.I

instance (t : PauliTerm) : Decidable t.WF := by
  unfold PauliTerm.WF; infer_instance

/-- `op[q]` on a `PauliTerm`: the letter stored at qubit `q`, defaulting to I
for a qubit absent from the map. -/
def PauliTerm.getOp (t : PauliTerm) (q : Nat) : PLetter :=
  match t.ops.lookup q with
  | some l => l
  | none => PLetter.I

/-- `op.get_qubits()`: the qubit indices explicitly stored in the map. -/
def PauliTerm.get_qubits (t : PauliTerm) : List Nat :=
  t.ops.map Prod.fst

/-- `pyquil.paulis.is_identity`: a term is the identity when it stores no
non-identity letter (the coefficient is not consulted). -/
def is_identity (t : PauliTerm) : Bool :=
  t.ops.isEmpty

/-- `Experiment`: one tomography-like experiment, an immutable pair of
Pauli operators (`@dataclass(frozen=True)`). -/
structure Experiment where
  in_operator : PauliTerm
  out_operator : PauliTerm
deriving DecidableEq, Repr

/-- Well-formedness of an `Experiment`: both operands are canonical
`PauliTerm`s. -/
def Experiment.WF (e : Experiment) : Prop :=
  e.in_operator.WF ∧ e.out_operator.WF

instance (e : Experiment) : Decidable e.WF := by
  unfold Experiment.WF; infer_instance

/-- `_ops_diagonal_in_tpb`: two letters are diagonal in a shared tensor product
basis when they are the same or one of them is I.  (The source's `ValueError`
on a letter outside {I, X, Y, Z} cannot arise: the letter type is closed.) -/
def ops_diagonal_in_tpb (op_code1 op_code2 : PLetter) : Bool :=
  if op_code1 = op_code2 then
    true
  else if op_code1 = PLetter.I ∨ op_code2 = PLetter.I then
    true
  else
    false

/-- `_all_qubits_diagonal_in_tpb`: compare all qubits touched by either term
(the source's set union is modelled by the concatenation of the two qubit
lists, which `all` inspects identically). -/
def all_qubits_diagonal_in_tpb (op1 op2 : PauliTerm) : Bool :=
  (op1.get_qubits ++ op2.get_qubits).all
    (fun q => ops_diagonal_in_tpb (op1.getOp q) (op2.getOp q))

/-- `ExperimentSuite`: an ordered list of groups of `Experiment`s, the shared
ansatz program (modelled by its text, see the header comment), and the qubit
list. -/
structure ExperimentSuite where
  experiments : List (List Experiment)
  program : List Char
  qubits : List Int
deriving DecidableEq, Repr

/-- The `ExperimentSuite` constructor applied to a flat (1D) list: each
experiment is wrapped into its own length-1 group. -/
def ExperimentSuite.mkFlat (expts : List Experiment) (program : List Char)
    (qubits : List Int) : ExperimentSuite :=
  ⟨expts.map (fun e => [e]), program, qubits⟩

/-- `ExperimentResult`: the per-experiment point estimate and its standard
error (floating-point values modelled as rationals). -/
structure ExperimentResult where
  experiment : Experiment
  expectation : Rat
  stddev : Rat
deriving DecidableEq, Repr

/-- The error outcomes the module can raise. -/
inductive OpErr
  | assertGrouping
  | assertInCoeff
  | complexCoeff
  | valueErr
  | typeErr
  | indexErr
deriving DecidableEq, Repr

/-- One instruction of a synthesized program: the rotations emitted by the
basis-change helpers (angles recorded as exact rational multiples of π), the
active-reset instruction, and the opaque ansatz program embedded by its
text. -/
inductive Instr
  | RY (angleOverPi : Rat) (idx : Nat)
  | RX (angleOverPi : Rat) (idx : Nat)
  | RESET
  | ansatz (text : List Char)
deriving DecidableEq, Repr

/-- `_local_pauli_eig_prep`: the rotation preparing the +1 eigenstate of the
given letter from |0⟩; X → RY(π/2), Y → RX(−π/2), Z → no gate, anything else
(here: I) raises `ValueError`. -/
def local_pauli_eig_prep (op : PLetter) (idx : Nat) :
    Except OpErr (List Instr) :=
  if op = PLetter.X then
    .ok [Instr.RY (1/2) idx]
  else if op = PLetter.Y then
    .ok [Instr.RX (-(1/2)) idx]
  else if op = PLetter.Z then
    .ok []
  else
    .error .valueErr

/-- `_local_pauli_eig_meas`: the rotation mapping the letter's eigenbasis onto
the native Z basis; X → RY(−π/2), Y → RX(π/2), Z → no gate, anything else
(here: I) raises `ValueError`. -/
def local_pauli_eig_meas (op : PLetter) (idx : Nat) :
    Except OpErr (List Instr) :=
  if op = PLetter.X then
    .ok [Instr.RY (-(1/2)) idx]
  else if op = PLetter.Y then
    .ok [Instr.RX (1/2) idx]
  else if op = PLetter.Z then
    .ok []
  else
    .error .valueErr

/-- One step of `_validate_all_diagonal_in_tpb`'s mapping construction: look
the qubit up in the insertion-ordered mapping; on a hit the stored letter must
agree (`assert`), on a miss the pair is appended. -/
def validateStep (mapping : List (Nat × PLetter)) (entry : Nat × PLetter) :
    Except OpErr (List (Nat × PLetter)) :=
  match mapping.lookup entry.1 with
  | some l => if l = entry.2 then .ok mapping else .error .assertGrouping
  | none => .ok (mapping ++ [entry])

/-- `_validate_all_diagonal_in_tpb`: fold every (qubit, letter) pair of every
operator (iteration over a `PauliTerm` yields only its stored, non-identity
entries) into one qubit→letter mapping, asserting agreement on collisions. -/
def validate_all_diagonal_in_tpb (ops : List PauliTerm) :
    Except OpErr (List (Nat × PLetter)) :=
  ops.foldlM (fun m op => op.ops.foldlM validateStep m) []

/-- The bit→eigenvalue conversion `1 - 2*bit` (0 → +1, 1 → −1). -/
def bitToEigen (b : Bool) : Rat :=
  1 - 2 * (if b then 1 else 0)

/-- The absolute value used by the `np.isclose` tolerance check. -/
def absQ (q : Rat) : Rat :=
  if q < 0 then -q else q

/-- Post-processing of one `Experiment` of a group, given the per-(qubit, shot)
bit function returned by the device for the group's program.  Follows step 3 of
`measure_observables`: the identity special case first, then the in-coefficient
assertion, the complex-coefficient check (`np.isclose(imag, 0)` with the
default absolute tolerance 10⁻⁸), and the mean/variance statistics.  `sqrtFn`
models floating-point `np.sqrt`. -/
def postProcess (bitFn : Nat → Nat → Bool) (nshots : Nat) (sqrtFn : Rat → Rat)
    (expt : Experiment) : Except OpErr ExperimentResult :=
  if is_identity expt.out_operator then
    .ok ⟨expt, 1, 0⟩
  else if expt.in_operator.coefficient ≠ ⟨1, 0⟩ then
    .error .assertInCoeff
  else if ¬ absQ expt.out_operator.coefficient.im ≤ 1 / 100000000 then
    .error .complexCoeff
  else
    let coeff := expt.out_operator.coefficient.re
    let obsVals := (List.range nshots).map (fun s =>
      coeff * (expt.out_operator.ops.map (fun p => bitToEigen (bitFn p.1 s))).prod)
    let obsMean := obsVals.sum / (nshots : Rat)
    let obsVar :=
      ((obsVals.map (fun v => (v - obsMean) * (v - obsMean))).sum /
          (nshots : Rat)) /
        (nshots : Rat)
    .ok ⟨expt, obsMean, sqrtFn obsVar⟩

/-- The inner loop of `measure_observables` over one group: results are yielded
experiment by experiment, so the results produced before a raising experiment
are kept and the error ends the stream. -/
def postLoop (bitFn : Nat → Nat → Bool) (nshots : Nat) (sqrtFn : Rat → Rat) :
    List Experiment → List ExperimentResult × Option OpErr
  | [] => ([], none)
  | e :: es =>
    match postProcess bitFn nshots sqrtFn e with
    | .error err => ([], some err)
    | .ok r =>
      let rest := postLoop bitFn nshots sqrtFn es
      (r :: rest.1, rest.2)

/-- Steps 1.1–1.3 of `measure_observables` for one group: validate the
in-mapping, append the preparation rotations, append the ansatz program,
validate the out-mapping, append the measurement rotations.  Any failure here
happens before the device is consulted. -/
def buildTotalProg (base : List Instr) (progText : List Char)
    (experiments : List Experiment) : Except OpErr (List Instr) := do
  let inMapping ← validate_all_diagonal_in_tpb
    (experiments.map (·.in_operator))
  let prog1 ← inMapping.foldlM (fun acc p => do
    let g ← local_pauli_eig_prep p.2 p.1
    pure (acc ++ g)) base
  let prog2 := prog1 ++ [Instr.ansatz progText]
  let outMapping ← validate_all_diagonal_in_tpb
    (experiments.map (·.out_operator))
  outMapping.foldlM (fun acc p => do
    let g ← local_pauli_eig_meas p.2 p.1
    pure (acc ++ g)) prog2

/-- The observable outcome of a (partial) run of `measure_observables`: the
results yielded so far, the programs handed to the device's
`run_and_measure`, and the error that ended the stream, if any. -/
structure MOOut where
  results : List ExperimentResult
  calls : List (List Instr)
  err : Option OpErr
deriving DecidableEq, Repr

/-- A device: `run_and_measure` modelled as a function from (program,
n_shots, qubit, shot) to the sampled bit. -/
def Device : Type :=
  List Instr → Nat → Nat → Nat → Bool

/-- One iteration of `measure_observables`'s outer loop: synthesize the
group's program (aborting before any device call on failure), call the device
once, and post-process each experiment of the group in order. -/
def runGroup (dev : Device) (sqrtFn : Rat → Rat) (progText : List Char)
    (nshots : Nat) (activeReset : Bool) (experiments : List Experiment) :
    MOOut :=
  let base : List Instr := if activeReset then [Instr.RESET] else []
  match buildTotalProg base progText experiments with
  | .error e => ⟨[], [], some e⟩
  | .ok totalProg =>
    let bitFn := dev totalProg nshots
    let rs := postLoop bitFn nshots sqrtFn experiments
    ⟨rs.1, [totalProg], rs.2⟩

/-- The outer loop of `measure_observables` over the suite's groups.  An error
ends the generator: later groups contribute no results and no device calls. -/
def measureObservablesGo (dev : Device) (sqrtFn : Rat → Rat)
    (progText : List Char) (nshots : Nat) (activeReset : Bool) :
    List (List Experiment) → MOOut
  | [] => ⟨[], [], none⟩
  | g :: gs =>
    let o := runGroup dev sqrtFn progText nshots activeReset g
    match o.err with
    | some e => ⟨o.results, o.calls, some e⟩
    | none =>
      let rest := measureObservablesGo dev sqrtFn progText nshots activeReset gs
      ⟨o.results ++ rest.results, o.calls ++ rest.calls, rest.err⟩

/-- `measure_observables`: measure all the observables in an
`ExperimentSuite` against the given device.  (`progress_callback` is purely
observational and not modelled.) -/
def measure_observables (dev : Device) (sqrtFn : Rat → Rat)
    (suite : ExperimentSuite) (nshots : Nat) (activeReset : Bool) : MOOut :=
  measureObservablesGo dev sqrtFn suite.program nshots activeReset
    suite.experiments

/-- Node insertion of `construct_tpb_graph`: visiting the (assumed singleton)
groups in order, a new experiment becomes a node and a repeated one bumps the
node's `count`.  The resulting node list is the first-occurrence
deduplication of the flat experiment list; the counts are recovered with
`List.count` on the flat list. -/
def dedupFirstGo : Nat → List Experiment → List Experiment
  | _, [] => []
  | 0, _ :: _ => []
  | n + 1, e :: rest => e :: dedupFirstGo n (rest.filter (fun x => x ≠ e))

/-- First-occurrence deduplication; the fuel `l.length` always suffices since
each step strictly shrinks the remaining list. -/
def dedupFirst (l : List Experiment) : List Experiment :=
  dedupFirstGo l.length l

/-- The edge relation of `construct_tpb_graph`: two distinct experiments are
connected when both their in-operators and their out-operators are diagonal in
a shared tensor product basis. -/
def tpbAdj (e1 e2 : Experiment) : Bool :=
  e1 ≠ e2 &&
    (all_qubits_diagonal_in_tpb e1.in_operator e2.in_operator &&
      all_qubits_diagonal_in_tpb e1.out_operator e2.out_operator)

/-- The `assert len(expt) == 1` pass of `construct_tpb_graph`: a suite is
consumed as a flat list of experiments, and a group of length ≠ 1 is an
`AssertionError`. -/
def flattenSingletons : List (List Experiment) →
    Except OpErr (List Experiment)
  | [] => .ok []
  | g :: rest =>
    match g with
    | [e] =>
      match flattenSingletons rest with
      | .ok tl => .ok (e :: tl)
      | .error err => .error err
    | _ => .error .assertGrouping

/-- Modelled from the spec: one greedy maximal-clique extraction of
`networkx`'s `clique_removal` — scan the remaining vertices in order and add
each one adjacent to everything collected so far. -/
def buildCliqueAux (acc : List Experiment) :
    List Experiment → List Experiment
  | [] => []
  | v :: vs =>
    if acc.all (fun u => tpbAdj u v) then
      v :: buildCliqueAux (acc ++ [v]) vs
    else
      buildCliqueAux acc vs

/-- Modelled from the spec: `networkx.clique_removal` — repeatedly extract one
maximal clique, remove its vertices from the graph, and repeat until no
vertices remain.  Each extracted clique becomes one output group. -/
def cliqueRemovalGo : Nat → List Experiment → List (List Experiment)
  | _, [] => []
  | 0, _ :: _ => []
  | n + 1, v :: vs =>
    let c := v :: buildCliqueAux [v] vs
    c :: cliqueRemovalGo n (vs.filter (fun u => u ∉ c))

/-- The greedy clique cover; the fuel `l.length` always suffices since each
extracted clique removes at least its seed vertex. -/
def cliqueRemoval (l : List Experiment) : List (List Experiment) :=
  cliqueRemovalGo l.length l

/-- `group_experiments`: build the TPB graph over the distinct experiments of
a flat suite, cover it by cliques, expand each clique node by its
multiplicity, and return a new suite with the same program and qubit list. -/
def group_experiments (suite : ExperimentSuite) :
    Except OpErr ExperimentSuite := do
  let flat ← flattenSingletons suite.experiments
  let nodes := dedupFirst flat
  let cliqs := cliqueRemoval nodes
  let newCliqs := cliqs.map (fun c =>
    (c.map (fun e => List.replicate (flat.count e) e)).flatten)
  pure ⟨newCliqs, suite.program, suite.qubits⟩

/-- Python `list.pop(index)` semantics, with the `ExperimentSuite.pop`
forwarding: the source's `pop(self, index=None)` hands its default `None`
straight to `list.pop`, and `list.pop(None)` is a `TypeError` (its index must
be an integer, with default `-1` only when the argument is absent).  A present
integer index supports negative indexing and raises `IndexError` out of
range. -/
def ExperimentSuite.pop (s : ExperimentSuite) (index : Option Int) :
    Except OpErr (List Experiment × ExperimentSuite) :=
  match index with
  | none => .error .typeErr
  | some i =>
    let n : Int := s.experiments.length
    let j : Int := if i < 0 then i + n else i
    if 0 ≤ j ∧ j < n then
      let k := j.toNat
      .ok (s.experiments.getD k [],
        ⟨s.experiments.take k ++ s.experiments.drop (k + 1), s.program,
          s.qubits⟩)
    else
      .error .indexErr

/-- The decimal digit characters used by the compact string encoding. -/
def digitChar (d : Nat) : Char :=
  match d with
  | 0 => '0'
  | 1 => '1'
  | 2 => '2'
  | 3 => '3'
  | 4 => '4'
  | 5 => '5'
  | 6 => '6'
  | 7 => '7'
  | 8 => '8'
  | _ => '9'

/-- The numeric value of a decimal digit character. -/
def charVal (c : Char) : Nat :=
  match c with
  | '0' => 0
  | '1' => 1
  | '2' => 2
  | '3' => 3
  | '4' => 4
  | '5' => 5
  | '6' => 6
  | '7' => 7
  | '8' => 8
  | _ => 9

/-- Whether a character is one of the ten decimal digits. -/
def isDigitC (c : Char) : Bool :=
  match c with
  | '0' | '1' | '2' | '3' | '4' | '5' | '6' | '7' | '8' | '9' => true
  | _ => false

/-- Decimal rendering of a natural number, most significant digit first. -/
def encNat (n : Nat) : List Char :=
  if n = 0 then ['0'] else (Nat.digits 10 n).reverse.map digitChar

/-- Parse a leading run of decimal digits; fails when there is none. -/
def parseNat (cs : List Char) : Option (Nat × List Char) :=
  let ds := cs.takeWhile isDigitC
  if ds.isEmpty then
    none
  else
    some (ds.foldl (fun a c => 10 * a + charVal c) 0, cs.dropWhile isDigitC)

/-- Signed decimal rendering of an integer. -/
def encInt (i : Int) : List Char :=
  if i < 0 then '-' :: encNat i.natAbs else encNat i.natAbs

/-- Parse an optional leading minus sign followed by decimal digits. -/
def parseInt (cs : List Char) : Option (Int × List Char) :=
  match cs with
  | [] => none
  | a :: rest =>
    if a = '-' then
      (parseNat rest).map (fun p => (-(p.1 : Int), p.2))
    else
      (parseNat (a :: rest)).map (fun p => ((p.1 : Int), p.2))

/-- Expect one specific character. -/
def expectChar (c : Char) (cs : List Char) : Option (List Char) :=
  match cs with
  | [] => none
  | a :: rest => if a = c then some rest else none

/-- A rational rendered as `numerator/denominator`. -/
def encRat (q : Rat) : List Char :=
  encInt q.num ++ '/' :: encNat q.den

/-- Parse `numerator/denominator` back into a rational. -/
def parseRat (cs : List Char) : Option (Rat × List Char) := do
  let p1 ← parseInt cs
  let r2 ← expectChar '/' p1.2
  let p3 ← parseNat r2
  some (mkRat p1.1 p3.1, p3.2)

/-- A complex scalar rendered in the style of Python's complex `repr`:
`(re+imj)` with the two rationals rendered by `encRat`. -/
def encCC (c : CC) : List Char :=
  '(' :: encRat c.re ++ '+' :: encRat c.im ++ ['j', ')']

/-- Parse the `(re+imj)` complex form. -/
def parseCC (cs : List Char) : Option (CC × List Char) := do
  let r1 ← expectChar '(' cs
  let p2 ← parseRat r1
  let r3 ← expectChar '+' p2.2
  let p4 ← parseRat r3
  let r5 ← expectChar 'j' p4.2
  let r6 ← expectChar ')' r5
  some (⟨p2.1, p4.1⟩, r6)

/-- The character of a Pauli letter. -/
def letterChar (l : PLetter) : Char :=
  match l with
  | .I => 'I'
  | .X => 'X'
  | .Y => 'Y'
  | .Z => 'Z'

/-- The Pauli letter of a character, when it is one. -/
def letterOfChar (c : Char) : Option PLetter :=
  match c with
  | 'I' => some PLetter.I
  | 'X' => some PLetter.X
  | 'Y' => some PLetter.Y
  | 'Z' => some PLetter.Z
  | _ => none

/-- The Pauli-word part of the compact string: each stored (qubit, letter)
pair rendered as the letter followed by the qubit index. -/
def encOps (ops : List (Nat × PLetter)) : List Char :=
  (ops.map (fun p => letterChar p.2 :: encNat p.1)).flatten

/-- Parse a sequence of letter/qubit pairs to the end of the input; the fuel
is an upper bound on the number of pairs. -/
def parseOpsGo : Nat → List Char → Option (List (Nat × PLetter))
  | _, [] => some []
  | 0, _ :: _ => none
  | fuel + 1, c :: rest => do
    let l ← letterOfChar c
    let p ← parseNat rest
    let tl ← parseOpsGo fuel p.2
    some ((p.1, l) :: tl)

/-- Parse the Pauli-word part of a compact string. -/
def parseOps (cs : List Char) : Option (List (Nat × PLetter)) :=
  parseOpsGo cs.length cs

/-- Modelled from the spec: `PauliTerm.compact_str` — the canonical compact
string form, `coefficient*pauli_word`, with the empty word (the identity)
rendered as `I`. -/
def PauliTerm.compact_str (t : PauliTerm) : List Char :=
  encCC t.coefficient ++ '*' :: (if t.ops.isEmpty then ['I'] else encOps t.ops)

/-- Modelled from the spec: `PauliTerm.from_compact_str` — the lossless
parse of the canonical compact string form. -/
def PauliTerm.from_compact_str (cs : List Char) : Option PauliTerm := do
  let p1 ← parseCC cs
  let r2 ← expectChar '*' p1.2
  if r2 = ['I'] then
    some ⟨p1.1, []⟩
  else do
    let ops ← parseOps r2
    some ⟨p1.1, ops⟩

/-- `Experiment.__str__`: `"<in.compact>→<out.compact>"`. -/
def Experiment.toStr (e : Experiment) : List Char :=
  e.in_operator.compact_str ++ '→' :: e.out_operator.compact_str

/-- The effect of a Python list comprehension over a fallible element
function: the list of results, or the first failure. -/
def traverseOpt {A B : Type} (f : A → Option B) : List A → Option (List B)
  | [] => some []
  | a :: tl =>
    match f a, traverseOpt f tl with
    | some b, some bs => some (b :: bs)
    | _, _ => none

/-- Python `s.split(sep)` for a one-character separator. -/
def splitOnChar (c : Char) : List Char → List (List Char)
  | [] => [[]]
  | a :: rest =>
    if a = c then
      [] :: splitOnChar c rest
    else
      match splitOnChar c rest with
      | [] => [[a]]
      | s :: ss => (a :: s) :: ss

/-- `Experiment.from_str`: split the canonical string on `'→'` (exactly two
parts, or the unpacking raises) and parse both compact strings. -/
def Experiment.from_str (s : List Char) : Option Experiment :=
  match splitOnChar '→' s with
  | [instr, outstr] =>
    match PauliTerm.from_compact_str instr,
        PauliTerm.from_compact_str outstr with
    | some i, some o => some ⟨i, o⟩
    | _, _ => none
  | _ => none

/-- The JSON object form of a serialized `ExperimentSuite`: the `type` tag,
the groups as nested arrays of Experiment strings (the `OperatorEncoder`
encodes each `Experiment` as `str(o)`), the program text, and the qubit
list. -/
structure SuiteJson where
  jtype : List Char
  experiments : List (List (List Char))
  program : List Char
  qubits : List Int
deriving DecidableEq, Repr

/-- The `type` tag of a serialized `ExperimentSuite`. -/
def suiteTypeTag : List Char :=
  "ExperimentSuite".data

/-- `ExperimentSuite.serializable` composed with the `OperatorEncoder`:
the JSON object written by `to_json`. -/
def ExperimentSuite.serializable (s : ExperimentSuite) : SuiteJson :=
  ⟨suiteTypeTag, s.experiments.map (fun g => g.map Experiment.toStr),
    s.program, s.qubits⟩

/-- `_operator_object_hook`: rebuild an `ExperimentSuite` from the JSON
object form — groups from `Experiment.from_str`, the program from its text,
and the qubit list as stored. -/
def operator_object_hook (j : SuiteJson) : Option ExperimentSuite :=
  if j.jtype = suiteTypeTag then
    match traverseOpt (fun g => traverseOpt Experiment.from_str g)
        j.experiments with
    | some groups => some ⟨groups, j.program, j.qubits⟩
    | none => none
  else
    none

/-! ### Round-trip lemmas for the compact string form -/

theorem charVal_digitChar {d : Nat} (h : d < 10) : charVal (digitChar d) = d := by
  interval_cases d <;> rfl

theorem isDigitC_digitChar {d : Nat} (h : d < 10) :
    isDigitC (digitChar d) = true := by
  interval_cases d <;> rfl

theorem mem_encNat_digit {n : Nat} {c : Char} (h : c ∈ encNat n) :
    isDigitC c = true := by
  unfold encNat at h
  split at h
  · simp only [List.mem_singleton] at h
    subst h; rfl
  · simp only [List.mem_map, List.mem_reverse] at h
    obtain ⟨d, hd, rfl⟩ := h
    exact isDigitC_digitChar (Nat.digits_lt_base (by norm_num) hd)

theorem encNat_ne_nil (n : Nat) : encNat n ≠ [] := by
  unfold encNat
  split
  · simp
  · simp [Nat.digits_ne_nil_iff_ne_zero, *]

/-- Whether the input's first character (if any) is not a decimal digit. -/
def headNotDigit (cs : List Char) : Bool :=
  match cs with
  | [] => true
  | c :: _ => !isDigitC c

theorem takeWhile_digits_append {ds rest : List Char}
    (h1 : ∀ c ∈ ds, isDigitC c = true) (h2 : headNotDigit rest = true) :
    (ds ++ rest).takeWhile isDigitC = ds ∧
      (ds ++ rest).dropWhile isDigitC = rest := by
  induction ds with
  | nil =>
    simp only [List.nil_append]
    cases rest with
    | nil => simp [List.takeWhile, List.dropWhile]
    | cons c cs =>
      simp only [headNotDigit, Bool.not_eq_true'] at h2
      simp [List.takeWhile, List.dropWhile, h2]
  | cons c cs ih =>
    have hc : isDigitC c = true := h1 c (by simp)
    have ih' := ih (fun x hx => h1 x (by simp [hx]))
    simp [List.takeWhile, List.dropWhile, hc, ih'.1, ih'.2]

theorem foldl_map_digitChar {ds : List Nat} (h : ∀ d ∈ ds, d < 10) :
    ∀ acc : Nat,
      (ds.map digitChar).foldl (fun a c => 10 * a + charVal c) acc =
        ds.foldl (fun a d => 10 * a + d) acc := by
  induction ds with
  | nil => intro acc; rfl
  | cons d tl ih =>
    intro acc
    have hd : d < 10 := h d (by simp)
    simp only [List.map_cons, List.foldl_cons, charVal_digitChar hd]
    exact ih (fun x hx => h x (by simp [hx])) _

theorem foldl_reverse_ofDigits (ds : List Nat) :
    ∀ acc : Nat,
      ds.reverse.foldl (fun a d => 10 * a + d) acc =
        acc * 10 ^ ds.length + Nat.ofDigits 10 ds := by
  induction ds with
  | nil => intro acc; simp
  | cons d tl ih =>
    intro acc
    simp only [List.reverse_cons, List.foldl_append, ih acc, List.foldl_cons,
      List.foldl_nil, Nat.ofDigits_cons, List.length_cons]
    ring

theorem parseNat_encNat (n : Nat) {rest : List Char}
    (h : headNotDigit rest = true) :
    parseNat (encNat n ++ rest) = some (n, rest) := by
  have htw := @takeWhile_digits_append (encNat n) rest
    (fun c hc => mem_encNat_digit hc) h
  unfold parseNat
  simp only [htw.1, htw.2]
  rw [if_neg (by simpa [List.isEmpty_iff] using encNat_ne_nil n)]
  congr 2
  unfold encNat
  split
  · subst n; rfl
  · rw [@foldl_map_digitChar (Nat.digits 10 n).reverse
      (fun d hd => Nat.digits_lt_base (by norm_num) (List.mem_reverse.mp hd))]
    rw [foldl_reverse_ofDigits]
    simp [Nat.ofDigits_digits]

theorem isDigitC_ne_dash {c : Char} (h : isDigitC c = true) : c ≠ '-' := by
  rintro rfl
  simp [isDigitC] at h

theorem parseInt_encInt (i : Int) {rest : List Char}
    (h : headNotDigit rest = true) :
    parseInt (encInt i ++ rest) = some (i, rest) := by
  unfold encInt
  split
  · rename_i hneg
    have hrt := @parseNat_encNat i.natAbs rest h
    simp [parseInt, hrt, Prod.ext_iff, abs_of_neg hneg]
  · rename_i hpos
    obtain ⟨c, cs, hc⟩ := List.exists_cons_of_ne_nil (encNat_ne_nil i.natAbs)
    have hcd : isDigitC c = true :=
      mem_encNat_digit (n := i.natAbs) (by rw [hc]; simp)
    have hrt := @parseNat_encNat i.natAbs rest h
    rw [hc] at hrt ⊢
    simp only [List.cons_append] at hrt ⊢
    simp only [parseInt, if_neg (isDigitC_ne_dash hcd), hrt,
      Option.map_some']
    simp [Prod.ext_iff]
    omega

theorem expectChar_cons (c : Char) (rest : List Char) :
    expectChar c (c :: rest) = some rest := by
  simp [expectChar]

theorem headNotDigitSlash (l : List Char) : headNotDigit ('/' :: l) = true := by
  rfl

theorem headNotDigitPlus (l : List Char) : headNotDigit ('+' :: l) = true := by
  rfl

theorem headNotDigitJay (l : List Char) : headNotDigit ('j' :: l) = true := by
  rfl

theorem parseRat_encRat (q : Rat) {rest : List Char}
    (h : headNotDigit rest = true) :
    parseRat (encRat q ++ rest) = some (q, rest) := by
  have h1 : encRat q ++ rest = encInt q.num ++ ('/' :: (encNat q.den ++ rest)) := by
    simp [encRat]
  rw [h1]
  unfold parseRat
  rw [parseInt_encInt q.num (headNotDigitSlash _)]
  simp only [Option.bind_eq_bind, Option.some_bind, expectChar_cons,
    parseNat_encNat q.den h, Rat.mkRat_self]

theorem parseCC_encCC (c : CC) (rest : List Char) :
    parseCC (encCC c ++ rest) = some (c, rest) := by
  have h1 : encCC c ++ rest =
      '(' :: (encRat c.re ++ ('+' :: (encRat c.im ++ ('j' :: ')' :: rest)))) := by
    simp [encCC]
  rw [h1]
  unfold parseCC
  rw [expectChar_cons]
  simp only [Option.bind_eq_bind, Option.some_bind]
  rw [parseRat_encRat c.re (headNotDigitPlus _)]
  simp only [Option.some_bind, expectChar_cons]
  rw [parseRat_encRat c.im (headNotDigitJay _)]
  simp only [Option.some_bind, expectChar_cons]

theorem letterOfChar_letterChar (l : PLetter) :
    letterOfChar (letterChar l) = some l := by
  cases l <;> rfl

theorem isDigitC_letterChar (l : PLetter) : isDigitC (letterChar l) = false := by
  cases l <;> rfl

theorem headNotDigit_encOps (ops : List (Nat × PLetter)) :
    headNotDigit (encOps ops) = true := by
  cases ops with
  | nil => rfl
  | cons p tl =>
    show headNotDigit ((letterChar p.2 :: encNat p.1) ++ encOps tl) = true
    simp [headNotDigit, isDigitC_letterChar]

theorem parseOpsGo_encOps (ops : List (Nat × PLetter)) :
    ∀ fuel : Nat, (encOps ops).length ≤ fuel →
      parseOpsGo fuel (encOps ops) = some ops := by
  induction ops with
  | nil => intro fuel _; cases fuel <;> rfl
  | cons p tl ih =>
    intro fuel hf
    have hexp : encOps (p :: tl) =
        letterChar p.2 :: (encNat p.1 ++ encOps tl) := by
      simp [encOps]
    rw [hexp] at hf ⊢
    obtain ⟨c0, cs0, hc0⟩ := List.exists_cons_of_ne_nil (encNat_ne_nil p.1)
    cases fuel with
    | zero =>
      exfalso
      simp at hf
    | succ f =>
      show (do
        let l ← letterOfChar (letterChar p.2)
        let q ← parseNat (encNat p.1 ++ encOps tl)
        let tl' ← parseOpsGo f q.2
        some ((q.1, l) :: tl')) = some (p :: tl)
      rw [letterOfChar_letterChar,
        parseNat_encNat p.1 (headNotDigit_encOps tl)]
      have hlen : (encOps tl).length ≤ f := by
        have h1 : (encNat p.1).length ≥ 1 := by
          rw [hc0]; simp
        simp only [List.length_cons, List.length_append] at hf
        omega
      simp only [Option.bind_eq_bind, Option.some_bind]
      rw [ih f hlen]
      rfl

theorem parseOps_encOps (ops : List (Nat × PLetter)) :
    parseOps (encOps ops) = some ops :=
  parseOpsGo_encOps ops (encOps ops).length le_rfl

theorem encOps_ne_singleI {ops : List (Nat × PLetter)} (h : ops ≠ []) :
    encOps ops ≠ ['I'] := by
  cases ops with
  | nil => exact absurd rfl h
  | cons p tl =>
    intro hcontra
    have hexp : encOps (p :: tl) =
        letterChar p.2 :: (encNat p.1 ++ encOps tl) := by
      simp [encOps]
    rw [hexp] at hcontra
    obtain ⟨c0, cs0, hc0⟩ := List.exists_cons_of_ne_nil (encNat_ne_nil p.1)
    rw [hc0] at hcontra
    simp at hcontra

theorem from_compact_str_compact_str (t : PauliTerm) :
    PauliTerm.from_compact_str t.compact_str = some t := by
  obtain ⟨coeff, ops⟩ := t
  by_cases hops : ops = []
  · subst hops
    have h1 : PauliTerm.compact_str ⟨coeff, []⟩ =
        encCC coeff ++ ('*' :: ['I']) := by
      simp [PauliTerm.compact_str]
    unfold PauliTerm.from_compact_str
    rw [h1, parseCC_encCC]
    simp [expectChar_cons]
  · have h1 : PauliTerm.compact_str ⟨coeff, ops⟩ =
        encCC coeff ++ ('*' :: encOps ops) := by
      simp [PauliTerm.compact_str, hops]
    unfold PauliTerm.from_compact_str
    rw [h1, parseCC_encCC]
    simp only [Option.bind_eq_bind, Option.some_bind, expectChar_cons]
    rw [if_neg (encOps_ne_singleI hops), parseOps_encOps]
    rfl

theorem arrow_not_mem_encNat (n : Nat) : '→' ∉ encNat n := by
  intro h
  have := mem_encNat_digit h
  simp [isDigitC] at this

theorem arrow_not_mem_encInt (i : Int) : '→' ∉ encInt i := by
  unfold encInt
  split
  · simp only [List.mem_cons, not_or]
    exact ⟨by decide, arrow_not_mem_encNat _⟩
  · exact arrow_not_mem_encNat _

theorem arrow_not_mem_encRat (q : Rat) : '→' ∉ encRat q := by
  unfold encRat
  simp only [List.mem_append, List.mem_cons, not_or]
  exact ⟨arrow_not_mem_encInt _, by decide, arrow_not_mem_encNat _⟩

theorem arrow_not_mem_encCC (c : CC) : '→' ∉ encCC c := by
  unfold encCC
  intro h
  rcases List.mem_append.mp h with h | h
  · rcases List.mem_append.mp h with h | h
    · rcases List.mem_cons.mp h with h | h
      · exact absurd h (by decide)
      · exact arrow_not_mem_encRat _ h
    · rcases List.mem_cons.mp h with h | h
      · exact absurd h (by decide)
      · exact arrow_not_mem_encRat _ h
  · exact absurd h (by decide)

theorem arrow_ne_letterChar (l : PLetter) : letterChar l ≠ '→' := by
  cases l <;> decide

theorem arrow_not_mem_encOps (ops : List (Nat × PLetter)) :
    '→' ∉ encOps ops := by
  induction ops with
  | nil => simp [encOps]
  | cons p tl ih =>
    have hexp : encOps (p :: tl) =
        letterChar p.2 :: (encNat p.1 ++ encOps tl) := by
      simp [encOps]
    rw [hexp]
    simp only [List.mem_cons, List.mem_append, not_or]
    exact ⟨fun h => arrow_ne_letterChar p.2 h.symm, arrow_not_mem_encNat _, ih⟩

theorem arrow_not_mem_compact_str (t : PauliTerm) : '→' ∉ t.compact_str := by
  unfold PauliTerm.compact_str
  simp only [List.mem_append, List.mem_cons, not_or]
  refine ⟨arrow_not_mem_encCC _, by decide, ?_⟩
  split
  · simp
  · exact arrow_not_mem_encOps _

theorem splitOnChar_not_mem {c : Char} {l : List Char} (h : c ∉ l) :
    splitOnChar c l = [l] := by
  induction l with
  | nil => rfl
  | cons a rest ih =>
    have ha : a ≠ c := fun hac => h (by simp [hac])
    have hrest : c ∉ rest := fun hr => h (by simp [hr])
    unfold splitOnChar
    rw [if_neg ha, ih hrest]

theorem splitOnChar_append {c : Char} {x y : List Char} (hx : c ∉ x) :
    splitOnChar c (x ++ c :: y) = x :: splitOnChar c y := by
  induction x with
  | nil =>
    show splitOnChar c (c :: y) = [] :: splitOnChar c y
    rw [splitOnChar, if_pos rfl]
  | cons a rest ih =>
    have ha : a ≠ c := fun hac => hx (by simp [hac])
    have hrest : c ∉ rest := fun hr => hx (by simp [hr])
    show splitOnChar c (a :: (rest ++ c :: y)) = _
    rw [splitOnChar, if_neg ha, ih hrest]

theorem from_str_toStr (e : Experiment) :
    Experiment.from_str e.toStr = some e := by
  unfold Experiment.from_str Experiment.toStr
  rw [splitOnChar_append (arrow_not_mem_compact_str e.in_operator),
    splitOnChar_not_mem (arrow_not_mem_compact_str e.out_operator)]
  simp [from_compact_str_compact_str]

theorem toStr_injective {e1 e2 : Experiment} (h : e1.toStr = e2.toStr) :
    e1 = e2 := by
  have h1 := from_str_toStr e1
  rw [h, from_str_toStr e2] at h1
  exact (Option.some_injective _ h1).symm

theorem traverseOpt_from_str_map_toStr (g : List Experiment) :
    traverseOpt Experiment.from_str (g.map Experiment.toStr) = some g := by
  induction g with
  | nil => rfl
  | cons e tl ih => simp [traverseOpt, from_str_toStr, ih]

theorem traverseOpt_groups_roundtrip (gs : List (List Experiment)) :
    traverseOpt (fun g => traverseOpt Experiment.from_str g)
      (gs.map (fun g => g.map Experiment.toStr)) = some gs := by
  induction gs with
  | nil => rfl
  | cons g tl ih => simp [traverseOpt, traverseOpt_from_str_map_toStr, ih]

/-! ### Claim theorems: serialization -/

/-- C6: for every Experiment `e`, parsing its canonical string form
`"<in.compact>→<out.compact>"` yields an Experiment equal to `e`:
`Experiment.from_str (str e) = e`. -/
theorem c6_experiment_str_roundtrip (e : Experiment) :
    Experiment.from_str e.toStr = some e :=
  from_str_toStr e

/-- C8: two Experiments are equal iff their canonical string forms are
equal. -/
theorem c8_experiment_eq_iff_str_eq (e1 e2 : Experiment) :
    e1 = e2 ↔ e1.toStr = e2.toStr :=
  ⟨fun h => h ▸ rfl, toStr_injective⟩

/-- C7: serializing an ExperimentSuite to its JSON form and deserializing it
back reconstructs a suite with identical groups, program text and qubit list
(the round-tripped suite is equal to the original). -/
theorem c7_suite_json_roundtrip (s : ExperimentSuite) :
    operator_object_hook s.serializable = some s := by
  unfold operator_object_hook ExperimentSuite.serializable
  rw [if_pos rfl]
  simp [traverseOpt_groups_roundtrip]

/-! ### Claim theorems: basis-rotation synthesis and pop -/

/-- C4 counterexample: the claim states that neither synthesis function fails
on the letter I (mapping it to "no gate"), but both raise `ValueError` on I:
the source's tables only cover X, Y and Z. -/
theorem c4_counterexample :
    local_pauli_eig_prep PLetter.I 0 = Except.error OpErr.valueErr ∧
      local_pauli_eig_meas PLetter.I 0 = Except.error OpErr.valueErr :=
  ⟨rfl, rfl⟩

/-- C4 (amended): the basis-rotation synthesis maps X to RY(+π/2), Y to
RX(−π/2) and Z to no gate in preparation, and X to RY(−π/2), Y to RX(+π/2)
and Z to no gate in measurement; the letter I is not handled and raises
`ValueError` in both functions. -/
theorem c4_rotation_tables (idx : Nat) :
    local_pauli_eig_prep PLetter.X idx = .ok [Instr.RY (1/2) idx] ∧
      local_pauli_eig_prep PLetter.Y idx = .ok [Instr.RX (-(1/2)) idx] ∧
      local_pauli_eig_prep PLetter.Z idx = .ok [] ∧
      local_pauli_eig_prep PLetter.I idx = .error OpErr.valueErr ∧
      local_pauli_eig_meas PLetter.X idx = .ok [Instr.RY (-(1/2)) idx] ∧
      local_pauli_eig_meas PLetter.Y idx = .ok [Instr.RX (1/2) idx] ∧
      local_pauli_eig_meas PLetter.Z idx = .ok [] ∧
      local_pauli_eig_meas PLetter.I idx = .error OpErr.valueErr :=
  ⟨rfl, rfl, rfl, rfl, rfl, rfl, rfl, rfl⟩

/-- A concrete experiment `I → Z0` used as a test input. -/
def egZ0 : Experiment :=
  ⟨⟨⟨1, 0⟩, []⟩, ⟨⟨1, 0⟩, [(0, PLetter.Z)]⟩⟩

/-- A concrete experiment `I → X0` used as a test input. -/
def egX0 : Experiment :=
  ⟨⟨⟨1, 0⟩, []⟩, ⟨⟨1, 0⟩, [(0, PLetter.X)]⟩⟩

/-- C9: on a concrete two-group suite, `pop()` with no index argument does
not remove and return the last group: the source forwards its `None` default
to `list.pop`, a `TypeError`.  `pop(i)` with a valid index does remove and
return group `i`. -/
theorem c9_pop_behavior :
    (ExperimentSuite.mkFlat [egZ0, egX0] [] []).pop none
        = Except.error OpErr.typeErr ∧
      (ExperimentSuite.mkFlat [egZ0, egX0] [] []).pop (some 1)
        = Except.ok ([egX0], ⟨[[egZ0]], [], []⟩) :=
  ⟨rfl, rfl⟩

/-! ### Lemmas on the qubit→letter mapping validation -/

theorem lookup_append_of_some {m l : List (Nat × PLetter)} {k : Nat}
    {v : PLetter} (h : m.lookup k = some v) : (m ++ l).lookup k = some v := by
  induction m with
  | nil => simp [List.lookup] at h
  | cons p tl ih =>
    by_cases hk : k = p.1
    · simp [List.lookup, hk, beq_self_eq_true] at h ⊢
      exact h
    · have hne : (k == p.1) = false := beq_false_of_ne hk
      simp only [List.cons_append, List.lookup, hne] at h ⊢
      exact ih h

theorem lookup_append_of_none {m l : List (Nat × PLetter)} {k : Nat}
    (h : m.lookup k = none) : (m ++ l).lookup k = l.lookup k := by
  induction m with
  | nil => simp
  | cons p tl ih =>
    by_cases hk : k = p.1
    · simp [List.lookup, hk, beq_self_eq_true] at h
    · have hne : (k == p.1) = false := beq_false_of_ne hk
      simp only [List.cons_append, List.lookup, hne] at h ⊢
      exact ih h

theorem exceptBindOk {A B E : Type} (a : A) (f : A → Except E B) :
    (Except.ok a >>= f) = f a :=
  rfl

theorem exceptBindErr {A B E : Type} (e : E) (f : A → Except E B) :
    ((Except.error e : Except E A) >>= f) = Except.error e :=
  rfl

theorem validateStep_ok {m m' : List (Nat × PLetter)} {p : Nat × PLetter}
    (h : validateStep m p = .ok m') :
    (∀ k v, m.lookup k = some v → m'.lookup k = some v) ∧
      m'.lookup p.1 = some p.2 ∧
      (∀ x ∈ m', x ∈ m ∨ x = p) := by
  unfold validateStep at h
  cases hl : m.lookup p.1 with
  | some l =>
    simp only [hl] at h
    by_cases hlp : l = p.2
    · rw [if_pos hlp] at h
      cases h
      subst hlp
      exact ⟨fun k v hv => hv, hl, fun x hx => Or.inl hx⟩
    · rw [if_neg hlp] at h
      cases h
  | none =>
    simp only [hl] at h
    cases h
    refine ⟨fun k v hv => lookup_append_of_some hv, ?_, ?_⟩
    · rw [lookup_append_of_none hl]
      simp [List.lookup]
    · intro x hx
      rcases List.mem_append.mp hx with hx | hx
      · exact Or.inl hx
      · simp only [List.mem_singleton] at hx
        exact Or.inr hx

theorem validateStep_error {m : List (Nat × PLetter)} {p : Nat × PLetter}
    {err : OpErr} (h : validateStep m p = .error err) :
    err = .assertGrouping := by
  unfold validateStep at h
  cases hl : m.lookup p.1 with
  | some l =>
    simp only [hl] at h
    by_cases hlp : l = p.2
    · rw [if_pos hlp] at h; cases h
    · rw [if_neg hlp] at h; cases h; rfl
  | none => simp only [hl] at h; cases h

theorem foldl_validateStep_ok {entries : List (Nat × PLetter)} :
    ∀ {m m' : List (Nat × PLetter)},
      entries.foldlM validateStep m = .ok m' →
      (∀ k v, m.lookup k = some v → m'.lookup k = some v) ∧
        (∀ p ∈ entries, m'.lookup p.1 = some p.2) ∧
        (∀ x ∈ m', x ∈ m ∨ x ∈ entries) := by
  induction entries with
  | nil =>
    intro m m' h
    cases h
    exact ⟨fun k v hv => hv, by simp, fun x hx => Or.inl hx⟩
  | cons p tl ih =>
    intro m m' h
    rw [List.foldlM_cons] at h
    cases hstep : validateStep m p with
    | error e => rw [hstep] at h; cases h
    | ok m1 =>
      rw [hstep] at h
      rw [exceptBindOk] at h
      obtain ⟨hpres1, hp1, hsub1⟩ := validateStep_ok hstep
      obtain ⟨hpres2, hall2, hsub2⟩ := ih h
      refine ⟨fun k v hv => hpres2 k v (hpres1 k v hv), ?_, ?_⟩
      · intro q hq
        rcases List.mem_cons.mp hq with hq | hq
        · subst hq; exact hpres2 _ _ hp1
        · exact hall2 q hq
      · intro x hx
        rcases hsub2 x hx with hx1 | hx1
        · rcases hsub1 x hx1 with hx2 | hx2
          · exact Or.inl hx2
          · exact Or.inr (by simp [hx2])
        · exact Or.inr (by simp [hx1])

theorem foldl_validateStep_error {entries : List (Nat × PLetter)} :
    ∀ {m : List (Nat × PLetter)} {err : OpErr},
      entries.foldlM validateStep m = .error err → err = .assertGrouping := by
  induction entries with
  | nil => intro m err h; cases h
  | cons p tl ih =>
    intro m err h
    rw [List.foldlM_cons] at h
    cases hstep : validateStep m p with
    | error e =>
      rw [hstep] at h
      rw [exceptBindErr] at h
      cases h
      exact validateStep_error hstep
    | ok m1 =>
      rw [hstep] at h
      rw [exceptBindOk] at h
      exact ih h

theorem validate_ok_facts {ops : List PauliTerm} :
    ∀ {m0 m : List (Nat × PLetter)},
      ops.foldlM (fun m op => op.ops.foldlM validateStep m) m0 = .ok m →
      (∀ k v, m0.lookup k = some v → m.lookup k = some v) ∧
        (∀ op ∈ ops, ∀ p ∈ op.ops, m.lookup p.1 = some p.2) ∧
        (∀ x ∈ m, x ∈ m0 ∨ ∃ op ∈ ops, x ∈ op.ops) := by
  induction ops with
  | nil =>
    intro m0 m h
    cases h
    exact ⟨fun k v hv => hv, by simp, fun x hx => Or.inl hx⟩
  | cons op tl ih =>
    intro m0 m h
    rw [List.foldlM_cons] at h
    cases hstep : op.ops.foldlM validateStep m0 with
    | error e => rw [hstep] at h; cases h
    | ok m1 =>
      rw [hstep] at h
      rw [exceptBindOk] at h
      obtain ⟨hpres1, hall1, hsub1⟩ := foldl_validateStep_ok hstep
      obtain ⟨hpres2, hall2, hsub2⟩ := ih h
      refine ⟨fun k v hv => hpres2 k v (hpres1 k v hv), ?_, ?_⟩
      · intro o ho p hp
        rcases List.mem_cons.mp ho with ho | ho
        · subst ho; exact hpres2 _ _ (hall1 p hp)
        · exact hall2 o ho p hp
      · intro x hx
        rcases hsub2 x hx with hx1 | hx1
        · rcases hsub1 x hx1 with hx2 | hx2
          · exact Or.inl hx2
          · exact Or.inr ⟨op, by simp, hx2⟩
        · obtain ⟨o, ho, hpo⟩ := hx1
          exact Or.inr ⟨o, by simp [ho], hpo⟩

theorem validate_error_eq {ops : List PauliTerm} :
    ∀ {m0 : List (Nat × PLetter)} {err : OpErr},
      ops.foldlM (fun m op => op.ops.foldlM validateStep m) m0 = .error err →
      err = .assertGrouping := by
  induction ops with
  | nil => intro m0 err h; cases h
  | cons op tl ih =>
    intro m0 err h
    rw [List.foldlM_cons] at h
    cases hstep : op.ops.foldlM validateStep m0 with
    | error e =>
      rw [hstep] at h
      rw [exceptBindErr] at h
      cases h
      exact foldl_validateStep_error hstep
    | ok m1 =>
      rw [hstep] at h
      rw [exceptBindOk] at h
      exact ih h

/-! ### Lemmas on post-processing and the outer loop -/

theorem postProcess_ok_facts {bitFn : Nat → Nat → Bool} {n : Nat}
    {sqrtFn : Rat → Rat} {e : Experiment} {r : ExperimentResult}
    (h : postProcess bitFn n sqrtFn e = .ok r) :
    r.experiment = e ∧
      (is_identity e.out_operator = true → r = ⟨e, 1, 0⟩) := by
  unfold postProcess at h
  by_cases h1 : is_identity e.out_operator
  · rw [if_pos h1] at h
    cases h
    exact ⟨rfl, fun _ => rfl⟩
  · rw [if_neg h1] at h
    by_cases h2 : e.in_operator.coefficient ≠ ⟨1, 0⟩
    · rw [if_pos h2] at h; cases h
    · rw [if_neg h2] at h
      by_cases h3 : ¬ absQ e.out_operator.coefficient.im ≤ 1 / 100000000
      · rw [if_pos h3] at h; cases h
      · rw [if_neg h3] at h
        cases h
        exact ⟨rfl, fun hid => absurd hid h1⟩

theorem postLoop_mem {bitFn : Nat → Nat → Bool} {n : Nat}
    {sqrtFn : Rat → Rat} :
    ∀ {es : List Experiment} {r : ExperimentResult},
      r ∈ (postLoop bitFn n sqrtFn es).1 →
      ∃ e ∈ es, postProcess bitFn n sqrtFn e = .ok r := by
  intro es
  induction es with
  | nil => intro r hr; simp [postLoop] at hr
  | cons e tl ih =>
    intro r hr
    unfold postLoop at hr
    cases hpp : postProcess bitFn n sqrtFn e with
    | error err => simp only [hpp] at hr; simp at hr
    | ok r0 =>
      simp only [hpp] at hr
      rcases List.mem_cons.mp hr with hr | hr
      · exact ⟨e, by simp, hr ▸ hpp⟩
      · obtain ⟨e1, he1, hok⟩ := ih hr
        exact ⟨e1, by simp [he1], hok⟩

theorem postLoop_err_none {bitFn : Nat → Nat → Bool} {n : Nat}
    {sqrtFn : Rat → Rat} :
    ∀ {es : List Experiment},
      (postLoop bitFn n sqrtFn es).2 = none →
      (postLoop bitFn n sqrtFn es).1.map (·.experiment) = es := by
  intro es
  induction es with
  | nil => intro _; rfl
  | cons e tl ih =>
    intro hnone
    unfold postLoop at hnone ⊢
    cases hpp : postProcess bitFn n sqrtFn e with
    | error err => simp only [hpp] at hnone; cases hnone
    | ok r0 =>
      simp only [hpp] at hnone ⊢
      simp only [List.map_cons, ih hnone,
        (postProcess_ok_facts hpp).1]

theorem runGroup_identity {dev : Device} {sqrtFn : Rat → Rat}
    {p : List Char} {n : Nat} {a : Bool} {g : List Experiment} :
    ∀ r ∈ (runGroup dev sqrtFn p n a g).results,
      is_identity r.experiment.out_operator = true →
        r.expectation = 1 ∧ r.stddev = 0 := by
  intro r hr hid
  unfold runGroup at hr
  cases hbt : buildTotalProg (if a then [Instr.RESET] else []) p g with
  | error e => simp only [hbt] at hr; simp at hr
  | ok tp =>
    simp only [hbt] at hr
    obtain ⟨e, _, hpp⟩ := postLoop_mem hr
    obtain ⟨hexp, hidr⟩ := postProcess_ok_facts hpp
    rw [hidr (by rw [hexp] at hid; exact hid)]
    exact ⟨rfl, rfl⟩

theorem runGroup_err_none {dev : Device} {sqrtFn : Rat → Rat}
    {p : List Char} {n : Nat} {a : Bool} {g : List Experiment}
    (h : (runGroup dev sqrtFn p n a g).err = none) :
    (runGroup dev sqrtFn p n a g).results.map (·.experiment) = g := by
  unfold runGroup at h ⊢
  cases hbt : buildTotalProg (if a then [Instr.RESET] else []) p g with
  | error e => simp only [hbt] at h; cases h
  | ok tp =>
    simp only [hbt] at h ⊢
    exact postLoop_err_none h

theorem go_identity {dev : Device} {sqrtFn : Rat → Rat} {p : List Char}
    {n : Nat} {a : Bool} :
    ∀ (gs : List (List Experiment)),
      ∀ r ∈ (measureObservablesGo dev sqrtFn p n a gs).results,
        is_identity r.experiment.out_operator = true →
          r.expectation = 1 ∧ r.stddev = 0 := by
  intro gs
  induction gs with
  | nil => intro r hr; simp [measureObservablesGo] at hr
  | cons g tl ih =>
    intro r hr hid
    unfold measureObservablesGo at hr
    cases ho : (runGroup dev sqrtFn p n a g).err with
    | some e =>
      simp only [ho] at hr
      exact runGroup_identity r hr hid
    | none =>
      simp only [ho] at hr
      rcases List.mem_append.mp hr with hr | hr
      · exact runGroup_identity r hr hid
      · exact ih r hr hid

theorem go_err_none {dev : Device} {sqrtFn : Rat → Rat} {p : List Char}
    {n : Nat} {a : Bool} :
    ∀ (gs : List (List Experiment)),
      (measureObservablesGo dev sqrtFn p n a gs).err = none →
      (measureObservablesGo dev sqrtFn p n a gs).results.map
        (·.experiment) = gs.flatten := by
  intro gs
  induction gs with
  | nil => intro _; rfl
  | cons g tl ih =>
    intro hnone
    unfold measureObservablesGo at hnone ⊢
    cases ho : (runGroup dev sqrtFn p n a g).err with
    | some e => simp only [ho] at hnone; cases hnone
    | none =>
      simp only [ho] at hnone ⊢
      simp only [List.map_append, runGroup_err_none ho, ih hnone,
        List.flatten_cons]

theorem foldl_validateStep_fresh :
    ∀ (entries : List (Nat × PLetter)) (m0 : List (Nat × PLetter)),
      (∀ p ∈ entries, m0.lookup p.1 = none) →
      entries.Pairwise (fun a b => a.1 ≠ b.1) →
      entries.foldlM validateStep m0 = .ok (m0 ++ entries) := by
  intro entries
  induction entries with
  | nil =>
    intro m0 _ _
    simp only [List.foldlM_nil, List.append_nil]
    rfl
  | cons p tl ih =>
    intro m0 hfresh hpw
    rw [List.foldlM_cons]
    have hstep : validateStep m0 p = .ok (m0 ++ [p]) := by
      unfold validateStep
      rw [hfresh p (by simp)]
    rw [hstep, exceptBindOk]
    have hfresh' : ∀ q ∈ tl, (m0 ++ [p]).lookup q.1 = none := by
      intro q hq
      rw [lookup_append_of_none (hfresh q (by simp [hq]))]
      have hne : q.1 ≠ p.1 := fun hqe =>
        (List.pairwise_cons.mp hpw).1 q hq hqe.symm
      simp [List.lookup, beq_false_of_ne hne]
    rw [ih (m0 ++ [p]) hfresh' (List.pairwise_cons.mp hpw).2]
    simp

theorem validate_single {op : PauliTerm}
    (h : op.ops.Pairwise (fun a b => a.1 < b.1)) :
    validate_all_diagonal_in_tpb [op] = .ok op.ops := by
  unfold validate_all_diagonal_in_tpb
  rw [List.foldlM_cons]
  rw [foldl_validateStep_fresh op.ops [] (by simp [List.lookup])
    (h.imp (fun hlt => Nat.ne_of_lt hlt))]
  simp [List.foldlM_nil, exceptBindOk]

/-- The conflict hypothesis of the grouping invariant: two members of the
group carry different letters for the same qubit in the operator selected by
`sel`. -/
def HasConflict (sel : Experiment → PauliTerm) (g : List Experiment) : Prop :=
  ∃ e1 ∈ g, ∃ e2 ∈ g, ∃ q l1 l2,
    (q, l1) ∈ (sel e1).ops ∧ (q, l2) ∈ (sel e2).ops ∧ l1 ≠ l2

theorem validate_conflict {ops : List PauliTerm}
    (hconf : ∃ op1 ∈ ops, ∃ op2 ∈ ops, ∃ q l1 l2,
      (q, l1) ∈ op1.ops ∧ (q, l2) ∈ op2.ops ∧ l1 ≠ l2) :
    validate_all_diagonal_in_tpb ops = .error .assertGrouping := by
  cases hv : validate_all_diagonal_in_tpb ops with
  | ok m =>
    exfalso
    obtain ⟨op1, h1, op2, h2, q, l1, l2, hm1, hm2, hne⟩ := hconf
    obtain ⟨_, hall, _⟩ := validate_ok_facts hv
    have e1 := hall op1 h1 (q, l1) hm1
    have e2 := hall op2 h2 (q, l2) hm2
    rw [e1] at e2
    exact hne (Option.some_injective _ e2)
  | error err => rw [validate_error_eq hv]

theorem prepFold_ok :
    ∀ (mapping : List (Nat × PLetter)),
      (∀ p ∈ mapping, p.2 ≠ PLetter.I) →
      ∀ acc : List Instr,
        ∃ prog, mapping.foldlM (fun acc p => do
          let g ← local_pauli_eig_prep p.2 p.1
          pure (acc ++ g)) acc = .ok prog := by
  intro mapping
  induction mapping with
  | nil => intro _ acc; exact ⟨acc, rfl⟩
  | cons p tl ih =>
    intro h acc
    have hstep : ∃ g, local_pauli_eig_prep p.2 p.1 = .ok g := by
      cases hl : p.2
      · exact absurd hl (h p (by simp))
      · exact ⟨_, by rw [local_pauli_eig_prep, if_pos rfl]⟩
      · exact ⟨_, by
          rw [local_pauli_eig_prep, if_neg (by simp), if_pos rfl]⟩
      · exact ⟨_, by
          rw [local_pauli_eig_prep, if_neg (by simp), if_neg (by simp),
            if_pos rfl]⟩
    obtain ⟨g, hg⟩ := hstep
    obtain ⟨prog, hprog⟩ := ih (fun x hx => h x (by simp [hx])) (acc ++ g)
    refine ⟨prog, ?_⟩
    rw [List.foldlM_cons]
    simp only [hg, exceptBindOk, pure_bind]
    exact hprog

theorem runGroup_conflict {dev : Device} {sqrtFn : Rat → Rat}
    {p : List Char} {n : Nat} {a : Bool} {g : List Experiment}
    (hwf : ∀ e ∈ g, e.WF)
    (hconf : HasConflict (·.in_operator) g ∨ HasConflict (·.out_operator) g) :
    runGroup dev sqrtFn p n a g = ⟨[], [], some .assertGrouping⟩ := by
  have hbt : buildTotalProg (if a then [Instr.RESET] else []) p g =
      .error .assertGrouping := by
    unfold buildTotalProg
    rcases hconf with hin | hout
    · have hv : validate_all_diagonal_in_tpb (g.map (·.in_operator)) =
          .error .assertGrouping := by
        apply validate_conflict
        obtain ⟨e1, he1, e2, he2, q, l1, l2, hm1, hm2, hne⟩ := hin
        exact ⟨e1.in_operator, List.mem_map_of_mem _ he1,
          e2.in_operator, List.mem_map_of_mem _ he2, q, l1, l2, hm1, hm2, hne⟩
      rw [hv, exceptBindErr]
    · cases hvi : validate_all_diagonal_in_tpb (g.map (·.in_operator)) with
      | error err =>
        rw [exceptBindErr, validate_error_eq hvi]
      | ok m =>
        have hlet : ∀ x ∈ m, x.2 ≠ PLetter.I := by
          intro x hx
          obtain ⟨_, _, hsub⟩ := validate_ok_facts hvi
          rcases hsub x hx with hx0 | ⟨op, hop, hxop⟩
          · simp at hx0
          · obtain ⟨e, he, rfl⟩ := List.mem_map.mp hop
            exact (hwf e he).1.2 x hxop
        obtain ⟨prog1, hp1⟩ := prepFold_ok m hlet
          (if a then [Instr.RESET] else [])
        have hvo : validate_all_diagonal_in_tpb (g.map (·.out_operator)) =
            .error .assertGrouping := by
          apply validate_conflict
          obtain ⟨e1, he1, e2, he2, q, l1, l2, hm1, hm2, hne⟩ := hout
          exact ⟨e1.out_operator, List.mem_map_of_mem _ he1,
            e2.out_operator, List.mem_map_of_mem _ he2, q, l1, l2, hm1, hm2,
            hne⟩
        simp only [exceptBindOk, hp1, hvo, exceptBindErr]
  simp only [runGroup, hbt]

theorem go_cons_ok {dev : Device} {sqrtFn : Rat → Rat} {p : List Char}
    {n : Nat} {a : Bool} {g : List Experiment}
    (ho : (runGroup dev sqrtFn p n a g).err = none)
    {tl : List (List Experiment)} :
    measureObservablesGo dev sqrtFn p n a (g :: tl) =
      ⟨(runGroup dev sqrtFn p n a g).results ++
          (measureObservablesGo dev sqrtFn p n a tl).results,
        (runGroup dev sqrtFn p n a g).calls ++
          (measureObservablesGo dev sqrtFn p n a tl).calls,
        (measureObservablesGo dev sqrtFn p n a tl).err⟩ := by
  simp only [measureObservablesGo]
  rw [ho]

theorem go_cons_err {dev : Device} {sqrtFn : Rat → Rat} {p : List Char}
    {n : Nat} {a : Bool} {g : List Experiment} {e : OpErr}
    (ho : (runGroup dev sqrtFn p n a g).err = some e)
    {tl : List (List Experiment)} :
    measureObservablesGo dev sqrtFn p n a (g :: tl) =
      ⟨(runGroup dev sqrtFn p n a g).results,
        (runGroup dev sqrtFn p n a g).calls, some e⟩ := by
  simp only [measureObservablesGo]
  rw [ho]

theorem go_append_ok {dev : Device} {sqrtFn : Rat → Rat} {p : List Char}
    {n : Nat} {a : Bool} :
    ∀ (xs ys : List (List Experiment)),
      (measureObservablesGo dev sqrtFn p n a xs).err = none →
      measureObservablesGo dev sqrtFn p n a (xs ++ ys) =
        ⟨(measureObservablesGo dev sqrtFn p n a xs).results ++
            (measureObservablesGo dev sqrtFn p n a ys).results,
          (measureObservablesGo dev sqrtFn p n a xs).calls ++
            (measureObservablesGo dev sqrtFn p n a ys).calls,
          (measureObservablesGo dev sqrtFn p n a ys).err⟩ := by
  intro xs
  induction xs with
  | nil => intro ys _; simp [measureObservablesGo]
  | cons g tl ih =>
    intro ys hnone
    cases ho : (runGroup dev sqrtFn p n a g).err with
    | some e =>
      rw [go_cons_err ho] at hnone
      simp at hnone
    | none =>
      have htl : (measureObservablesGo dev sqrtFn p n a tl).err = none := by
        rw [go_cons_ok ho] at hnone
        exact hnone
      show measureObservablesGo dev sqrtFn p n a (g :: (tl ++ ys)) = _
      simp only [go_cons_ok ho, ih ys htl]
      simp [List.append_assoc]

/-! ### Claim theorems: measurement pipeline -/

/-- C3: for every Experiment whose out_operator is the identity,
`measure_observables` yields `ExperimentResult(e, 1.0, 0.0)` for every
occurrence of `e` — the result stream covers every occurrence in order, and
every identity-out result is exactly (1, 0) — independent of the device's bit
matrix and of n_shots (both are universally quantified). -/
theorem c3_identity_out_perfect (dev : Device) (sqrtFn : Rat → Rat)
    (s : ExperimentSuite) (nshots : Nat) (activeReset : Bool)
    (hok : (measure_observables dev sqrtFn s nshots activeReset).err = none) :
    (measure_observables dev sqrtFn s nshots activeReset).results.map
        (·.experiment) = s.experiments.flatten ∧
      ∀ r ∈ (measure_observables dev sqrtFn s nshots activeReset).results,
        is_identity r.experiment.out_operator = true →
          r.expectation = 1 ∧ r.stddev = 0 :=
  ⟨go_err_none s.experiments hok, fun r hr => go_identity s.experiments r hr⟩

/-- The always-zero device used as a concrete test input. -/
def devFalse : Device :=
  fun _ _ _ _ => false

/-- A concrete stand-in for floating-point square root on a test input. -/
def sqrtQ0 : Rat → Rat :=
  fun q => q

/-- A concrete experiment `I → I` (identity out-operator) used as a test
input. -/
def egI : Experiment :=
  ⟨⟨⟨1, 0⟩, []⟩, ⟨⟨1, 0⟩, []⟩⟩

theorem c3_identity_out_perfect_witness :
    (measure_observables devFalse sqrtQ0 ⟨[[egI]], [], [0]⟩ 3
          false).results.map (·.experiment) =
        (ExperimentSuite.mk [[egI]] [] [0]).experiments.flatten ∧
      ∀ r ∈ (measure_observables devFalse sqrtQ0 ⟨[[egI]], [], [0]⟩ 3
          false).results,
        is_identity r.experiment.out_operator = true →
          r.expectation = 1 ∧ r.stddev = 0 :=
  c3_identity_out_perfect devFalse sqrtQ0 ⟨[[egI]], [], [0]⟩ 3 false
    (by decide)

/-- C5: a group in which two Experiments assign different letters to the same
qubit (in their in_operators, or independently in their out_operators) makes
`measure_observables` fail with the grouping-invariant violation when it
reaches that group: the results and device calls are exactly those of the
preceding groups — in particular `run_and_measure` is never invoked for the
offending group — and the stream ends with the assertion error. -/
theorem c5_grouping_violation (dev : Device) (sqrtFn : Rat → Rat)
    (prog : List Char) (qubits : List Int) (pre : List (List Experiment))
    (g : List Experiment) (post : List (List Experiment)) (nshots : Nat)
    (a : Bool) (hwf : ∀ e ∈ g, e.WF)
    (hconf : HasConflict (·.in_operator) g ∨ HasConflict (·.out_operator) g)
    (hpre :
      (measure_observables dev sqrtFn ⟨pre, prog, qubits⟩ nshots a).err =
        none) :
    measure_observables dev sqrtFn ⟨pre ++ g :: post, prog, qubits⟩ nshots a =
      ⟨(measure_observables dev sqrtFn ⟨pre, prog, qubits⟩ nshots a).results,
        (measure_observables dev sqrtFn ⟨pre, prog, qubits⟩ nshots a).calls,
        some .assertGrouping⟩ := by
  have hrg := @runGroup_conflict dev sqrtFn prog nshots a g hwf hconf
  have hbad : measureObservablesGo dev sqrtFn prog nshots a (g :: post) =
      ⟨[], [], some .assertGrouping⟩ := by
    rw [go_cons_err (by rw [hrg])]
    rw [hrg]
  show measureObservablesGo dev sqrtFn prog nshots a (pre ++ g :: post) = _
  rw [go_append_ok pre (g :: post) hpre, hbad]
  simp only [List.append_nil]
  rfl

theorem c5_grouping_violation_witness :
    measure_observables devFalse sqrtQ0 ⟨[] ++ [egZ0, egX0] :: [], [], []⟩ 5
        false =
      ⟨(measure_observables devFalse sqrtQ0 ⟨[], [], []⟩ 5 false).results,
        (measure_observables devFalse sqrtQ0 ⟨[], [], []⟩ 5 false).calls,
        some OpErr.assertGrouping⟩ :=
  c5_grouping_violation devFalse sqrtQ0 [] [] [] [egZ0, egX0] [] 5 false
    (by decide)
    (Or.inr ⟨egZ0, by decide, egX0, by decide, 0, PLetter.Z, PLetter.X,
      by decide, by decide, by decide⟩)
    rfl

/-- C10: when an Experiment's out_operator is the identity,
`measure_observables` emits expectation 1.0 and stddev 0.0 without any
coefficient validation: the in-coefficient `cin` and the out-coefficient
`cout` are arbitrary (`cin` need not be 1; `cout` may differ from 1 and may
be complex), and the emitted expectation is 1, not `cout`. -/
theorem c10_identity_skips_coeff_checks (dev : Device) (sqrtFn : Rat → Rat)
    (progText : List Char) (qubits : List Int) (cin cout : CC)
    (inOps : List (Nat × PLetter)) (nshots : Nat) (a : Bool)
    (hwf : PauliTerm.WF ⟨cin, inOps⟩) :
    (measure_observables dev sqrtFn
        ⟨[[⟨⟨cin, inOps⟩, ⟨cout, []⟩⟩]], progText, qubits⟩ nshots a).results =
        [⟨⟨⟨cin, inOps⟩, ⟨cout, []⟩⟩, 1, 0⟩] ∧
      (measure_observables dev sqrtFn
        ⟨[[⟨⟨cin, inOps⟩, ⟨cout, []⟩⟩]], progText, qubits⟩ nshots a).err =
        none := by
  obtain ⟨prog1, hp1⟩ := prepFold_ok inOps hwf.2
    (if a then [Instr.RESET] else [])
  have hvin : validate_all_diagonal_in_tpb
      [Experiment.in_operator ⟨⟨cin, inOps⟩, ⟨cout, []⟩⟩] = .ok inOps :=
    validate_single hwf.1
  have hvout : validate_all_diagonal_in_tpb
      [Experiment.out_operator ⟨⟨cin, inOps⟩, ⟨cout, []⟩⟩] = .ok [] :=
    validate_single (by simp)
  have hbt : buildTotalProg (if a then [Instr.RESET] else []) progText
      [⟨⟨cin, inOps⟩, ⟨cout, []⟩⟩] =
      .ok (prog1 ++ [Instr.ansatz progText]) := by
    unfold buildTotalProg
    simp only [List.map_cons, List.map_nil]
    simp only [hvin, exceptBindOk, hp1, hvout, List.foldlM_nil]
    rfl
  have hpp : postProcess (dev (prog1 ++ [Instr.ansatz progText]) nshots)
      nshots sqrtFn ⟨⟨cin, inOps⟩, ⟨cout, []⟩⟩ =
      .ok ⟨⟨⟨cin, inOps⟩, ⟨cout, []⟩⟩, 1, 0⟩ := by
    unfold postProcess
    rw [if_pos (show is_identity
      (Experiment.out_operator ⟨⟨cin, inOps⟩, ⟨cout, []⟩⟩) = true from rfl)]
  have hrg : runGroup dev sqrtFn progText nshots a
      [⟨⟨cin, inOps⟩, ⟨cout, []⟩⟩] =
      ⟨[⟨⟨⟨cin, inOps⟩, ⟨cout, []⟩⟩, 1, 0⟩],
        [prog1 ++ [Instr.ansatz progText]], none⟩ := by
    simp only [runGroup, hbt]
    unfold postLoop
    simp only [hpp]
    rfl
  have hgo : measureObservablesGo dev sqrtFn progText nshots a
      [[⟨⟨cin, inOps⟩, ⟨cout, []⟩⟩]] =
      ⟨[⟨⟨⟨cin, inOps⟩, ⟨cout, []⟩⟩, 1, 0⟩],
        [prog1 ++ [Instr.ansatz progText]], none⟩ := by
    rw [go_cons_ok (by rw [hrg])]
    rw [hrg]
    rfl
  exact ⟨by rw [show (measure_observables dev sqrtFn
      ⟨[[⟨⟨cin, inOps⟩, ⟨cout, []⟩⟩]], progText, qubits⟩ nshots a) =
      measureObservablesGo dev sqrtFn progText nshots a
        [[⟨⟨cin, inOps⟩, ⟨cout, []⟩⟩]] from rfl, hgo],
    by rw [show (measure_observables dev sqrtFn
      ⟨[[⟨⟨cin, inOps⟩, ⟨cout, []⟩⟩]], progText, qubits⟩ nshots a) =
      measureObservablesGo dev sqrtFn progText nshots a
        [[⟨⟨cin, inOps⟩, ⟨cout, []⟩⟩]] from rfl, hgo]⟩

theorem c10_identity_skips_coeff_checks_witness :
    (measure_observables devFalse sqrtQ0
        ⟨[[⟨⟨⟨2, 0⟩, [(0, PLetter.X)]⟩, ⟨⟨5, 3⟩, []⟩⟩]], [], []⟩ 4
        false).results =
        [⟨⟨⟨⟨2, 0⟩, [(0, PLetter.X)]⟩, ⟨⟨5, 3⟩, []⟩⟩, 1, 0⟩] ∧
      (measure_observables devFalse sqrtQ0
        ⟨[[⟨⟨⟨2, 0⟩, [(0, PLetter.X)]⟩, ⟨⟨5, 3⟩, []⟩⟩]], [], []⟩ 4
        false).err = none :=
  c10_identity_skips_coeff_checks devFalse sqrtQ0 [] [] ⟨2, 0⟩ ⟨5, 3⟩
    [(0, PLetter.X)] 4 false (by decide)

/-! ### Lemmas on grouping -/

theorem mem_dedupFirst_aux :
    ∀ (n : Nat) (l : List Experiment), l.length ≤ n →
      ∀ x : Experiment, (x ∈ dedupFirstGo n l ↔ x ∈ l) := by
  intro n
  induction n with
  | zero =>
    intro l hl x
    have hnil : l = [] := List.length_eq_zero.mp (Nat.le_zero.mp hl)
    subst hnil
    rw [dedupFirstGo]
  | succ n ih =>
    intro l hl x
    cases l with
    | nil => rw [dedupFirstGo]
    | cons e rest =>
      rw [dedupFirstGo]
      have hlen : (rest.filter (fun y => y ≠ e)).length ≤ n := by
        have := List.length_filter_le (fun y => decide (y ≠ e)) rest
        simp only [List.length_cons] at hl
        omega
      constructor
      · intro hx
        rcases List.mem_cons.mp hx with hx | hx
        · simp [hx]
        · have h1 := (ih _ hlen x).mp hx
          have h2 := List.mem_of_mem_filter h1
          simp [h2]
      · intro hx
        rcases List.mem_cons.mp hx with hx | hx
        · simp [hx]
        · by_cases hxe : x = e
          · simp [hxe]
          · refine List.mem_cons.mpr (Or.inr ?_)
            refine (ih _ hlen x).mpr ?_
            exact List.mem_filter.mpr ⟨hx, by simp [hxe]⟩

theorem mem_dedupFirst (l : List Experiment) (x : Experiment) :
    x ∈ dedupFirst l ↔ x ∈ l :=
  mem_dedupFirst_aux l.length l le_rfl x

theorem nodup_dedupFirst_aux :
    ∀ (n : Nat) (l : List Experiment), l.length ≤ n →
      (dedupFirstGo n l).Nodup := by
  intro n
  induction n with
  | zero =>
    intro l hl
    have hnil : l = [] := List.length_eq_zero.mp (Nat.le_zero.mp hl)
    subst hnil
    rw [dedupFirstGo]
    exact List.nodup_nil
  | succ n ih =>
    intro l hl
    cases l with
    | nil => rw [dedupFirstGo]; exact List.nodup_nil
    | cons e rest =>
      rw [dedupFirstGo]
      have hlen : (rest.filter (fun y => y ≠ e)).length ≤ n := by
        have := List.length_filter_le (fun y => decide (y ≠ e)) rest
        simp only [List.length_cons] at hl
        omega
      refine List.nodup_cons.mpr ⟨?_, ih _ hlen⟩
      intro hmem
      have h1 := (mem_dedupFirst_aux n _ hlen e).mp hmem
      have h2 := (List.mem_filter.mp h1).2
      simp at h2

/-- The clique relation as a proposition. -/
def AdjP (a b : Experiment) : Prop :=
  tpbAdj a b = true

theorem buildCliqueAux_sublist :
    ∀ (vs : List Experiment) (acc : List Experiment),
      List.Sublist (buildCliqueAux acc vs) vs := by
  intro vs
  induction vs with
  | nil => intro acc; rw [buildCliqueAux]
  | cons v rest ih =>
    intro acc
    rw [buildCliqueAux]
    split
    · exact List.Sublist.cons₂ v (ih (acc ++ [v]))
    · exact List.Sublist.cons v (ih acc)

theorem buildCliqueAux_pairwise :
    ∀ (vs acc : List Experiment), acc.Pairwise AdjP →
      (acc ++ buildCliqueAux acc vs).Pairwise AdjP := by
  intro vs
  induction vs with
  | nil =>
    intro acc h
    rw [buildCliqueAux]
    simpa using h
  | cons v rest ih =>
    intro acc h
    rw [buildCliqueAux]
    split
    · rename_i hall
      have h2 : (acc ++ [v]).Pairwise AdjP := by
        rw [List.pairwise_append]
        refine ⟨h, by simp, ?_⟩
        intro a ha b hb
        simp only [List.mem_singleton] at hb
        subst hb
        exact List.all_eq_true.mp hall a ha
      have h3 := ih (acc ++ [v]) h2
      simpa [List.append_assoc] using h3
    · exact ih acc h

theorem cliqueRemoval_cliques_aux :
    ∀ (n : Nat) (l : List Experiment), l.length ≤ n →
      ∀ c ∈ cliqueRemovalGo n l, c.Pairwise AdjP := by
  intro n
  induction n with
  | zero =>
    intro l hl c hc
    have hnil : l = [] := List.length_eq_zero.mp (Nat.le_zero.mp hl)
    subst hnil
    rw [cliqueRemovalGo] at hc
    simp at hc
  | succ n ih =>
    intro l hl c hc
    cases l with
    | nil => rw [cliqueRemovalGo] at hc; simp at hc
    | cons v vs =>
      rw [cliqueRemovalGo] at hc
      rcases List.mem_cons.mp hc with hc | hc
      · subst hc
        have h2 := buildCliqueAux_pairwise vs [v] (by simp)
        simpa using h2
      · have hlen :
            (vs.filter (fun u => u ∉ v :: buildCliqueAux [v] vs)).length ≤
              n := by
          have := List.length_filter_le
            (fun u => decide (u ∉ v :: buildCliqueAux [v] vs)) vs
          simp only [List.length_cons] at hl
          omega
        exact ih _ hlen c hc

theorem sublist_filter_not_mem_perm {c0 vs : List Experiment}
    (hs : List.Sublist c0 vs) (hn : vs.Nodup) :
    (c0 ++ vs.filter (fun u => u ∉ c0)).Perm vs := by
  rw [List.perm_iff_count]
  intro x
  rw [List.count_append]
  by_cases hx : x ∈ c0
  · rw [List.count_eq_one_of_mem (hs.nodup hn) hx]
    rw [List.count_eq_zero.mpr (fun hmem =>
      by simpa [hx] using (List.mem_filter.mp hmem).2)]
    rw [List.count_eq_one_of_mem hn (hs.subset hx)]
  · rw [List.count_eq_zero.mpr hx]
    rw [List.count_filter (by simpa using hx)]
    omega

theorem cliqueRemoval_flatten_perm_aux :
    ∀ (n : Nat) (l : List Experiment), l.length ≤ n → l.Nodup →
      (cliqueRemovalGo n l).flatten.Perm l := by
  intro n
  induction n with
  | zero =>
    intro l hl _
    have hnil : l = [] := List.length_eq_zero.mp (Nat.le_zero.mp hl)
    subst hnil
    rw [cliqueRemovalGo]
    rfl
  | succ n ih =>
    intro l hl hnd
    cases l with
    | nil => rw [cliqueRemovalGo]; rfl
    | cons v vs =>
      rw [cliqueRemovalGo]
      have hvn : v ∉ vs := (List.nodup_cons.mp hnd).1
      have hvsn : vs.Nodup := (List.nodup_cons.mp hnd).2
      have hsub := buildCliqueAux_sublist vs [v]
      have hcongr :
          vs.filter (fun u => u ∉ v :: buildCliqueAux [v] vs) =
            vs.filter (fun u => u ∉ buildCliqueAux [v] vs) := by
        apply List.filter_congr
        intro u hu
        have huv : u ≠ v := fun h => hvn (h ▸ hu)
        simp [List.mem_cons, huv]
      have hlen :
          (vs.filter (fun u => u ∉ buildCliqueAux [v] vs)).length ≤ n := by
        have := List.length_filter_le
          (fun u => decide (u ∉ buildCliqueAux [v] vs)) vs
        simp only [List.length_cons] at hl
        omega
      rw [hcongr]
      have hrec := ih _ hlen (hvsn.filter _)
      have h1 : ((v :: buildCliqueAux [v] vs) ::
            cliqueRemovalGo n (vs.filter
              (fun u => u ∉ buildCliqueAux [v] vs))).flatten
          = v :: (buildCliqueAux [v] vs ++
              (cliqueRemovalGo n (vs.filter
                (fun u => u ∉ buildCliqueAux [v] vs))).flatten) := by
        simp
      rw [h1]
      refine List.Perm.cons v ?_
      exact List.Perm.trans (List.Perm.append_left _ hrec)
        (sublist_filter_not_mem_perm hsub hvsn)

theorem nodup_dedupFirst (l : List Experiment) : (dedupFirst l).Nodup :=
  nodup_dedupFirst_aux l.length l le_rfl

theorem cliqueRemoval_cliques (l : List Experiment) :
    ∀ c ∈ cliqueRemoval l, c.Pairwise AdjP :=
  cliqueRemoval_cliques_aux l.length l le_rfl

theorem cliqueRemoval_flatten_perm (l : List Experiment) (h : l.Nodup) :
    (cliqueRemoval l).flatten.Perm l :=
  cliqueRemoval_flatten_perm_aux l.length l le_rfl h

theorem flattenSingletons_flat :
    ∀ (gs : List (List Experiment)), (∀ g ∈ gs, ∃ e, g = [e]) →
      flattenSingletons gs = .ok gs.flatten := by
  intro gs
  induction gs with
  | nil => intro _; rfl
  | cons g rest ih =>
    intro h
    obtain ⟨e, rfl⟩ := h g (by simp)
    have hrest := ih (fun g hg => h g (by simp [hg]))
    simp only [flattenSingletons, hrest, List.flatten_cons,
      List.singleton_append]

theorem lookup_eq_none_of_not_mem_keys {ops : List (Nat × PLetter)} {q : Nat}
    (h : q ∉ ops.map Prod.fst) : ops.lookup q = none := by
  induction ops with
  | nil => rfl
  | cons p tl ih =>
    have hq : q ≠ p.1 := by
      intro hq
      exact h (by simp [hq])
    simp only [List.lookup, beq_false_of_ne hq]
    exact ih (fun hmem => h (by simp [hmem]))

theorem getOp_eq_I {t : PauliTerm} {q : Nat} (h : q ∉ t.get_qubits) :
    t.getOp q = PLetter.I := by
  unfold PauliTerm.getOp
  rw [lookup_eq_none_of_not_mem_keys h]

theorem ops_diag_symm (a b : PLetter) :
    ops_diagonal_in_tpb a b = ops_diagonal_in_tpb b a := by
  cases a <;> cases b <;> rfl

theorem all_qubits_pointwise {op1 op2 : PauliTerm}
    (h : all_qubits_diagonal_in_tpb op1 op2 = true) (q : Nat) :
    ops_diagonal_in_tpb (op1.getOp q) (op2.getOp q) = true := by
  by_cases hq : q ∈ op1.get_qubits ++ op2.get_qubits
  · exact List.all_eq_true.mp h q hq
  · simp only [List.mem_append, not_or] at hq
    rw [getOp_eq_I hq.1, getOp_eq_I hq.2]
    rfl

theorem adjP_iff {a b : Experiment} :
    AdjP a b ↔ a ≠ b ∧
      all_qubits_diagonal_in_tpb a.in_operator b.in_operator = true ∧
      all_qubits_diagonal_in_tpb a.out_operator b.out_operator = true := by
  unfold AdjP tpbAdj
  simp [Bool.and_eq_true, and_assoc]

theorem adjP_symm : Symmetric AdjP := by
  intro a b h
  rw [adjP_iff] at h ⊢
  refine ⟨h.1.symm, ?_, ?_⟩
  · apply List.all_eq_true.mpr
    intro q _
    rw [ops_diag_symm]
    exact all_qubits_pointwise h.2.1 q
  · apply List.all_eq_true.mpr
    intro q _
    rw [ops_diag_symm]
    exact all_qubits_pointwise h.2.2 q

theorem mem_expand {k : Experiment → Nat} {c : List Experiment}
    {x : Experiment}
    (hx : x ∈ (c.map (fun e => List.replicate (k e) e)).flatten) : x ∈ c := by
  obtain ⟨l, hl, hxl⟩ := List.mem_flatten.mp hx
  obtain ⟨e, he, rfl⟩ := List.mem_map.mp hl
  rw [List.eq_of_mem_replicate hxl]
  exact he

theorem group_experiments_flat {s : ExperimentSuite}
    (hflat : ∀ g ∈ s.experiments, ∃ e, g = [e]) :
    group_experiments s =
      .ok ⟨(cliqueRemoval (dedupFirst s.experiments.flatten)).map
          (fun c => (c.map (fun e =>
            List.replicate (s.experiments.flatten.count e) e)).flatten),
        s.program, s.qubits⟩ := by
  unfold group_experiments
  rw [flattenSingletons_flat _ hflat]
  rfl

/-! ### Claim theorems: grouping -/

/-- C1: for every flat ExperimentSuite, every group produced by
`group_experiments` is pairwise TPB-compatible: any two distinct members
agree, qubit by qubit, whenever neither letter is I — separately for the
in-operators and the out-operators (`ops_diagonal_in_tpb` is exactly
"equal or one is I"). -/
theorem c1_grouped_pairwise_compatible (s : ExperimentSuite)
    (hflat : ∀ g ∈ s.experiments, ∃ e, g = [e]) (s' : ExperimentSuite)
    (h : group_experiments s = .ok s') :
    ∀ g ∈ s'.experiments, ∀ e1 ∈ g, ∀ e2 ∈ g, e1 ≠ e2 → ∀ q : Nat,
      ops_diagonal_in_tpb (e1.in_operator.getOp q)
          (e2.in_operator.getOp q) = true ∧
        ops_diagonal_in_tpb (e1.out_operator.getOp q)
          (e2.out_operator.getOp q) = true := by
  rw [group_experiments_flat hflat] at h
  cases h
  intro g hg e1 he1 e2 he2 hne q
  obtain ⟨c, hc, rfl⟩ := List.mem_map.mp hg
  have he1' := mem_expand he1
  have he2' := mem_expand he2
  have hpw := cliqueRemoval_cliques _ c hc
  have hadj : AdjP e1 e2 :=
    List.Pairwise.forall adjP_symm hpw he1' he2' hne
  rw [adjP_iff] at hadj
  exact ⟨all_qubits_pointwise hadj.2.1 q, all_qubits_pointwise hadj.2.2 q⟩

theorem sum_ite_nodup {x : Experiment} {k : Experiment → Nat} :
    ∀ (nodes : List Experiment), nodes.Nodup →
      ((nodes.map (fun e => if x = e then k e else 0)).sum) =
        if x ∈ nodes then k x else 0 := by
  intro nodes
  induction nodes with
  | nil => intro _; simp
  | cons e tl ih =>
    intro hnd
    simp only [List.map_cons, List.sum_cons]
    by_cases hxe : x = e
    · subst hxe
      rw [if_pos rfl, if_pos (by simp)]
      have hxtl : x ∉ tl := (List.nodup_cons.mp hnd).1
      have htl : ((tl.map (fun e => if x = e then k e else 0)).sum) = 0 := by
        apply List.sum_eq_zero
        intro y hy
        obtain ⟨e1, he1, rfl⟩ := List.mem_map.mp hy
        rw [if_neg (fun hx1 => hxtl (by rw [hx1]; exact he1))]
      omega
    · rw [if_neg hxe, ih (List.nodup_cons.mp hnd).2]
      by_cases hxt : x ∈ tl <;> simp [List.mem_cons, hxe, hxt]

theorem count_expand (flat : List Experiment) (x : Experiment) :
    ((cliqueRemoval (dedupFirst flat)).map
      (fun c => (c.map (fun e =>
        List.replicate (flat.count e) e)).flatten)).flatten.count x =
      flat.count x := by
  rw [List.count_flatten, List.map_map]
  have hc : ∀ c : List Experiment,
      (List.count x ∘ (fun c => (c.map (fun e =>
        List.replicate (flat.count e) e)).flatten)) c =
      (c.map (fun e => if x = e then flat.count e else 0)).sum := by
    intro c
    simp only [Function.comp_apply]
    rw [List.count_flatten, List.map_map]
    congr 1
    apply List.map_congr_left
    intro e _
    simp only [Function.comp_apply, List.count_replicate]
    by_cases hxe : x = e
    · subst hxe; simp
    · rw [if_neg (by simpa using fun h => hxe h.symm), if_neg hxe]
  rw [List.map_congr_left (fun c _ => hc c)]
  have hflatten :
      ((cliqueRemoval (dedupFirst flat)).map (fun c =>
        (c.map (fun e => if x = e then flat.count e else 0)).sum)).sum =
      (((cliqueRemoval (dedupFirst flat)).flatten.map
        (fun e => if x = e then flat.count e else 0)).sum) := by
    rw [List.map_flatten, List.sum_flatten, List.map_map]
    rfl
  rw [hflatten]
  have hperm := (cliqueRemoval_flatten_perm (dedupFirst flat)
    (nodup_dedupFirst flat)).map
    (fun e => if x = e then flat.count e else 0)
  rw [hperm.sum_eq]
  rw [sum_ite_nodup (dedupFirst flat) (nodup_dedupFirst flat)]
  by_cases hx : x ∈ flat
  · rw [if_pos ((mem_dedupFirst flat x).mpr hx)]
  · rw [if_neg (fun hmem => hx ((mem_dedupFirst flat x).mp hmem))]
    rw [List.count_eq_zero.mpr hx]

/-- C2: grouping a flat suite neither loses nor duplicates Experiment
occurrences: the flattened output groups are a permutation of the flattened
input (each distinct Experiment keeps its multiplicity), and the total
Experiment count — the sum of group lengths — is preserved. -/
theorem c2_grouping_preserves_counts (s : ExperimentSuite)
    (hflat : ∀ g ∈ s.experiments, ∃ e, g = [e]) (s' : ExperimentSuite)
    (h : group_experiments s = .ok s') :
    s'.experiments.flatten.Perm s.experiments.flatten ∧
      (s'.experiments.map List.length).sum =
        (s.experiments.map List.length).sum := by
  rw [group_experiments_flat hflat] at h
  cases h
  have hp : ((cliqueRemoval (dedupFirst s.experiments.flatten)).map
      (fun c => (c.map (fun e =>
        List.replicate (s.experiments.flatten.count e) e)).flatten)).flatten.Perm
      s.experiments.flatten := by
    rw [List.perm_iff_count]
    intro x
    exact count_expand s.experiments.flatten x
  refine ⟨hp, ?_⟩
  rw [← List.length_flatten, ← List.length_flatten]
  exact hp.length_eq

theorem c2_grouping_preserves_counts_witness :
    (ExperimentSuite.mk [[egZ0], [egX0]] [] []).experiments.flatten.Perm
        (ExperimentSuite.mk [[egZ0], [egX0]] [] []).experiments.flatten ∧
      ((ExperimentSuite.mk [[egZ0], [egX0]] [] []).experiments.map
          List.length).sum =
        ((ExperimentSuite.mk [[egZ0], [egX0]] [] []).experiments.map
          List.length).sum :=
  c2_grouping_preserves_counts ⟨[[egZ0], [egX0]], [], []⟩
    (by
      intro g hg
      simp only [List.mem_cons, List.not_mem_nil, or_false] at hg
      rcases hg with rfl | rfl
      · exact ⟨egZ0, rfl⟩
      · exact ⟨egX0, rfl⟩)
    ⟨[[egZ0], [egX0]], [], []⟩ rfl

/-- A concrete experiment `I → Z1` used as a test input; it is grouped with
`egZ0` since the two out-operators touch disjoint qubits. -/
def egZ1 : Experiment :=
  ⟨⟨⟨1, 0⟩, []⟩, ⟨⟨1, 0⟩, [(1, PLetter.Z)]⟩⟩

theorem c1_grouped_pairwise_compatible_witness :
    ops_diagonal_in_tpb (egZ0.in_operator.getOp 0)
        (egZ1.in_operator.getOp 0) = true ∧
      ops_diagonal_in_tpb (egZ0.out_operator.getOp 0)
        (egZ1.out_operator.getOp 0) = true :=
  c1_grouped_pairwise_compatible ⟨[[egZ0], [egZ1]], [], []⟩
    (by
      intro g hg
      simp only [List.mem_cons, List.not_mem_nil, or_false] at hg
      rcases hg with rfl | rfl
      · exact ⟨egZ0, rfl⟩
      · exact ⟨egZ1, rfl⟩)
    ⟨[[egZ0, egZ1]], [], []⟩ rfl [egZ0, egZ1] (by decide) egZ0 (by decide)
    egZ1 (by decide) (by decide) 0
